import Mathlib

/-!
A shallow embedding of `src/repository/src/raw.rs` (the `CurRepository`
implementation of the `RawRepository` trait) together with proofs about the
embedded operations.

The repository state (object store, branch references, HEAD) is made explicit
as a pure value; the behaviour of the underlying `git2` library at the call
sites used by the source is embedded alongside (error codes of `find_branch`,
`find_commit`, `branch`, `set_target`, `branch delete`, `head`, revision
walks).  `unwrap()` panics in the source are modelled as returned errors.
Functions whose bodies are missing from the source are modelled from the
specification and carry a doc comment saying so.
-/

/-- A commit hash.  In the source this is a fixed 20-byte content hash
(`CommitHash { hash: [u8; 20] }`) whose equality is byte equality.  The byte
array is abstracted by a single number, which preserves the observable
structure: decidable equality, and `Oid::from_bytes` never failing on a
fixed-size array. -/
structure CommitHash where
  hash : Nat
deriving DecidableEq

/-- Branch names (`pub type Branch = String;` upstream). -/
abbrev Branch := String

/-- The `git2` error codes produced at the call sites the source uses. -/
inductive Git2Code where
  | NotFound
  | Exists
  | UnbornBranch
  | GenericError
deriving DecidableEq

/-- The error type of `raw.rs`: `Git2Error(git2::Error)`,
`InvalidRepository(String)`, `Unknown(String)`.  There is no further variant;
in particular the enum has no `NotFound` or `AlreadyExists` constructor of its
own, such conditions only ever appear as `git2` codes inside `Git2Error`. -/
inductive Error where
  | Git2Error : Git2Code → Error
  | InvalidRepository : String → Error
  | Unknown : String → Error
deriving DecidableEq

/-- A commit node: parent hashes, message text and committer timestamp. -/
structure Commit where
  parents : List CommitHash
  message : String
  time : Nat
deriving DecidableEq

/-- The HEAD reference: unborn (no commits yet), attached to a branch, or
detached at a commit. -/
inductive HeadState where
  | unborn : HeadState
  | attached : Branch → HeadState
  | detached : CommitHash → HeadState
deriving DecidableEq

/-- The observable state of the repository behind the `CurRepository` handle:
the object store, the local branch references, HEAD, a counter providing fresh
object ids, and the working-tree/index contents touched by `create_commit`. -/
structure RepoState where
  commits : List (CommitHash × Commit)
  branches : List (Branch × CommitHash)
  head : HeadState
  nextId : Nat
  workdirFiles : List String
  indexEntries : List String
deriving DecidableEq

/-- `Repository::find_commit` / object-store lookup by hash. -/
def findCommit (st : RepoState) (h : CommitHash) : Option Commit :=
  match st.commits.find? (fun pr => decide (pr.1 = h)) with
  | some pr => some pr.2
  | none => none

/-- `Repository::find_branch(name, BranchType::Local)` resolved to the target
commit hash. -/
def findBranch (st : RepoState) (b : Branch) : Option CommitHash :=
  match st.branches.find? (fun pr => decide (pr.1 = b)) with
  | some pr => some pr.2
  | none => none

/-- The state `Repository::init` produces: an empty object store, no branches,
unborn HEAD. -/
def repoEmpty : RepoState :=
  { commits := [], branches := [], head := HeadState.unborn, nextId := 0,
    workdirFiles := [], indexEntries := [] }

/-- `init(directory)`.  The underlying `Repository::open(directory)` call is
modelled by its observable outcome: `existing` is `some r` exactly when a
repository `r` already exists at the path.  The source returns
`Error::InvalidRepository("There is an already existing repository")` in that
case and otherwise initializes an empty repository. -/
def init (existing : Option RepoState) : Except Error RepoState :=
  match existing with
  | some _ => .error (.InvalidRepository "There is an already existing repository")
  | none => .ok repoEmpty

/-- `locate_branch`: `find_branch` (propagating the `git2` NotFound error)
followed by `branch.get().target().unwrap()`. -/
def locate_branch (st : RepoState) (branch : Branch) : Except Error CommitHash :=
  match findBranch st branch with
  | none => .error (.Git2Error .NotFound)
  | some c => .ok c

/-- `create_branch(branch_name, commit_hash)`: `find_commit` first (NotFound
from `git2` when the commit is absent), then `repo.branch(name, commit, false)`
which, with `force == false`, fails with the `git2` Exists code when the name
is already taken and leaves the existing reference untouched. -/
def create_branch (st : RepoState) (branch_name : Branch) (commit_hash : CommitHash) :
    Except Error RepoState :=
  match findCommit st commit_hash with
  | none => .error (.Git2Error .NotFound)
  | some _ =>
    match findBranch st branch_name with
    | some _ => .error (.Git2Error .Exists)
    | none => .ok { st with branches := (branch_name, commit_hash) :: st.branches }

/-- Repoint the named branch in the reference list. -/
def set_branch_target (bs : List (Branch × CommitHash)) (b : Branch) (c : CommitHash) :
    List (Branch × CommitHash) :=
  bs.map (fun pr => if pr.1 = b then (b, c) else pr)

/-- `Reference::set_target(oid, reflog_msg)` as exposed by `git2`: creating a
direct reference validates that the target object exists (strict object
creation), so the update fails when the commit is absent and repoints the
reference otherwise. -/
def refSetTarget (st : RepoState) (b : Branch) (c : CommitHash) :
    Except Git2Code RepoState :=
  if (findCommit st c).isSome then
    .ok { st with branches := set_branch_target st.branches b c }
  else
    .error .NotFound

/-- `move_branch(branch, commit_hash)`: `find_branch` may fail with the `git2`
NotFound error; the result of `set_target` is bound to `_` and discarded by the
source, so the operation returns `Ok(())` whether or not the retarget
succeeded. -/
def move_branch (st : RepoState) (branch : Branch) (commit_hash : CommitHash) :
    Except Error RepoState :=
  match findBranch st branch with
  | none => .error (.Git2Error .NotFound)
  | some _ =>
    match refSetTarget st branch commit_hash with
    | .ok st1 => .ok st1
    | .error _ => .ok st

/-- `git2::Branch::delete`: fails when the branch is the current HEAD of the
repository, otherwise removes the reference. -/
def refDelete (st : RepoState) (b : Branch) : Except Git2Code RepoState :=
  if st.head = HeadState.attached b then
    .error .GenericError
  else
    .ok { st with branches := st.branches.filter (fun pr => decide (pr.1 ≠ b)) }

/-- `delete_branch(branch)`: `find_branch` may fail with the `git2` NotFound
error; the result of `branch.delete()` is bound to `_delete` and discarded by
the source, so the operation returns `Ok(())` whether or not the deletion
succeeded. -/
def delete_branch (st : RepoState) (branch : Branch) : Except Error RepoState :=
  match findBranch st branch with
  | none => .error (.Git2Error .NotFound)
  | some _ =>
    match refDelete st branch with
    | .ok st1 => .ok st1
    | .error _ => .ok st

/-- `Repository::head()` as exposed by `git2`: fails with the UnbornBranch
code when HEAD points at a branch that does not exist yet (a repository with
no commits), and resolves to the target commit otherwise. -/
def repositoryHead (st : RepoState) : Except Git2Code CommitHash :=
  match st.head with
  | HeadState.unborn => .error .UnbornBranch
  | HeadState.attached b =>
    match findBranch st b with
    | some c => .ok c
    | none => .error .UnbornBranch
  | HeadState.detached h => .ok h

/-- `get_head()`: `Repository::head()` mapped through `Error::from`, then
`ref_head.target().unwrap()`. -/
def get_head (st : RepoState) : Except Error CommitHash :=
  match repositoryHead st with
  | .error e => .error (.Git2Error e)
  | .ok h => .ok h

/-- Fuel that dominates the number of queue operations a revision walk can
perform on this store. -/
def fuelFor (st : RepoState) : Nat :=
  (st.commits.foldr (fun pr a => pr.2.parents.length + 1 + a) 0) + 1

/-- Work-list collection of the commits reachable from the pushed commits, as
performed by iterating a `git2` revwalk: each commit is yielded once, and the
walk fails with the NotFound code when it reaches an object missing from the
store. -/
def walkAux (st : RepoState) : Nat → List CommitHash → List CommitHash →
    Except Git2Code (List CommitHash)
  | 0, _, acc => .ok acc.reverse
  | _ + 1, [], acc => .ok acc.reverse
  | fuel + 1, c :: q, acc =>
    if c ∈ acc then walkAux st fuel q acc
    else
      match findCommit st c with
      | none => .error .NotFound
      | some cm => walkAux st fuel (q ++ cm.parents) (c :: acc)

/-- `revwalk.push(start)` followed by collecting the walk into a vector. -/
def revwalkCollect (st : RepoState) (start : CommitHash) :
    Except Git2Code (List CommitHash) :=
  walkAux st (fuelFor st) [start] []

/-- Commit time used by the TIME sorting of a revwalk. -/
def timeOfC (st : RepoState) (h : CommitHash) : Nat :=
  match findCommit st h with
  | some cm => cm.time
  | none => 0

/-- Insertion into a list sorted by descending commit time. -/
def insertByTime (st : RepoState) (c : CommitHash) : List CommitHash → List CommitHash
  | [] => [c]
  | d :: ds =>
    if timeOfC st d ≤ timeOfC st c then c :: d :: ds
    else d :: insertByTime st c ds

/-- `git2::Sort::TIME`: commits ordered by descending commit time. -/
def sortByTimeDesc (st : RepoState) : List CommitHash → List CommitHash
  | [] => []
  | c :: cs => insertByTime st c (sortByTimeDesc st cs)

/-- `git2::Sort::TIME | git2::Sort::REVERSE`: the time-sorted walk emitted in
reverse order (oldest commit first). -/
def timeSortedReverse (st : RepoState) (l : List CommitHash) : List CommitHash :=
  (sortByTimeDesc st l).reverse

/-- `get_initial_commit()`: any failure of `Repository::head()` becomes
`InvalidRepository("Repository is empty")`; then a revwalk from HEAD sorted
TIME | REVERSE is collected and its first element (`oids[0]`, a panicking index
in the source) is returned.  No linearity check is performed. -/
def get_initial_commit (st : RepoState) : Except Error CommitHash :=
  match repositoryHead st with
  | .error _ => .error (.InvalidRepository "Repository is empty")
  | .ok h =>
    match revwalkCollect st h with
    | .error e => .error (.Git2Error e)
    | .ok oids =>
      match timeSortedReverse st oids with
      | [] => .error (.Unknown "panic: index out of bounds")
      | o :: _ => .ok o

/-- Modelled from the spec: the success path of `list_ancestors` is missing
from the source (the final `else` branch of the parent-count analysis is an
empty block holding only a TODO comment).  Per the spec the walk follows
parent links starting at the direct parent, nearest first, stops at the root
or after the requested number of entries, and fails `InvalidRepository` as
soon as a node visited while still collecting has more than one parent. -/
def walkAncestors (st : RepoState) : CommitHash → Nat → Except Error (List CommitHash)
  | _, 0 => .ok []
  | c, bound + 1 =>
    match findCommit st c with
    | none => .error (.Git2Error .NotFound)
    | some cm =>
      match cm.parents with
      | [] => .ok []
      | [p] =>
        match walkAncestors st p bound with
        | .ok rest => .ok (p :: rest)
        | .error e => .error e
      | _ :: _ :: _ => .error (.InvalidRepository "There exists a merge commit")

/-- `list_ancestors(commit_hash, max)`: the source pushes the commit on a
revwalk and collects it (the collected vector is then discarded), looks the
commit up, and analyses its parent count: zero parents fail with
`InvalidRepository("There is no parent commit")`, more than one with
`InvalidRepository("There exists a merge commit")`.  The remaining (single
parent) branch is the spec-modelled `walkAncestors`. -/
def list_ancestors (st : RepoState) (commit_hash : CommitHash) (max : Option Nat) :
    Except Error (List CommitHash) :=
  match findCommit st commit_hash with
  | none => .error (.Git2Error .NotFound)
  | some cm =>
    match revwalkCollect st commit_hash with
    | .error e => .error (.Git2Error e)
    | .ok _ =>
      if cm.parents.length = 0 then
        .error (.InvalidRepository "There is no parent commit")
      else if 1 < cm.parents.length then
        .error (.InvalidRepository "There exists a merge commit")
      else
        walkAncestors st commit_hash
          (match max with
           | some k => k
           | none => st.commits.length)

/-- The unique parent link: defined exactly when the commit is present and has
a single parent. -/
def parentOf (st : RepoState) (h : CommitHash) : Option CommitHash :=
  match findCommit st h with
  | some cm =>
    match cm.parents with
    | [p] => some p
    | _ => none
  | none => none

/-- `l` is the strict ancestor chain of `c`, nearest first: each element is
the unique parent of the previous one. -/
def isChain (st : RepoState) : CommitHash → List CommitHash → Prop
  | _, [] => True
  | c, a :: rest => parentOf st c = some a ∧ isChain st a rest

/-- The commit is present and has no parents. -/
def isRootB (st : RepoState) (h : CommitHash) : Bool :=
  match findCommit st h with
  | some cm => cm.parents.isEmpty
  | none => false

/-- Every parent link recorded in the store points to a stored commit with a
strictly smaller commit time (no cycles, no dangling parents). -/
def parentsTimeOk (st : RepoState) : Bool :=
  st.commits.all (fun pr =>
    pr.2.parents.all (fun p =>
      match findCommit st p with
      | some pm => decide (pm.time < pr.2.time)
      | none => false))

/-- Modelled from the spec: the reserved (structured) state carried by a
semantic commit.  Its serialization format is delegated to the state's own
serializer, so it is abstracted as an opaque lossless payload. -/
structure ReservedState where
  payload : String
deriving DecidableEq

/-- `SemanticCommit { title, body, reserved_state }` from the source. -/
structure SemanticCommit where
  title : String
  body : String
  reserved_state : Option ReservedState
deriving DecidableEq

/-- The newline character separating lines of a commit message. -/
def newlineChar : Char := '\n'

/-- Split a character list into its lines (inverse of `joinLines`). -/
def splitLines : List Char → List (List Char)
  | [] => [[]]
  | c :: cs =>
    if c = newlineChar then [] :: splitLines cs
    else
      match splitLines cs with
      | [] => [[c]]
      | l :: ls => (c :: l) :: ls

/-- Join lines with newline characters. -/
def joinLines : List (List Char) → List Char
  | [] => []
  | [l] => l
  | l :: ls => l ++ newlineChar :: joinLines ls

/-- Modelled from the spec: the fixed sentinel line that separates the
free-form body from the serialized reserved-state block. -/
def reservedStateMarker : List Char := "== reserved state ==".data

/-- The trailing block contributed by the optional reserved state: nothing, or
a newline, the sentinel line, and the payload through end of message. -/
def stateBlock : Option ReservedState → List Char
  | none => []
  | some rs => newlineChar :: (reservedStateMarker ++ newlineChar :: rs.payload.data)

/-- Modelled from the spec: the semantic-commit message encoding.  First line
is the title, then a blank line, then the body, then the optional sentinel
line followed by the serialized reserved state through end of message. -/
def encodeSemanticCommit (s : SemanticCommit) : String :=
  { data := s.title.data ++ newlineChar :: newlineChar :: (s.body.data ++ stateBlock s.reserved_state) }

/-- Index of the first sentinel line among the message lines. -/
def findMarkerIdx : List (List Char) → Option Nat
  | [] => none
  | l :: ls =>
    if l = reservedStateMarker then some 0
    else (findMarkerIdx ls).map (fun i => i + 1)

/-- Modelled from the spec: decoding a commit message back into a
`SemanticCommit`.  A message that does not have a title line followed by a
blank line fails `InvalidRepository`; without the sentinel the reserved state
is `none`; with it, everything after the sentinel line is the payload. -/
def decodeSemanticCommit (m : String) : Except Error SemanticCommit :=
  match splitLines m.data with
  | t :: bl :: rest =>
    if bl = [] then
      match findMarkerIdx rest with
      | none =>
        .ok { title := { data := t }, body := { data := joinLines rest }, reserved_state := none }
      | some i =>
        .ok { title := { data := t },
              body := { data := joinLines (rest.take i) },
              reserved_state := some { payload := { data := joinLines (rest.drop (i + 1)) } } }
    else .error (.InvalidRepository "malformed semantic commit message")
  | _ => .error (.InvalidRepository "malformed semantic commit message")

/-- Modelled from the spec: `create_semantic_commit` is `unimplemented!()` in
the source.  Per the spec it fails `InvalidRepository` unless HEAD is attached
to a named branch, and otherwise creates a commit on that branch whose message
is the semantic-commit encoding, advancing the branch to the new commit. -/
def create_semantic_commit (st : RepoState) (commit : SemanticCommit) :
    Except Error (RepoState × CommitHash) :=
  match st.head with
  | HeadState.attached b =>
    match findBranch st b with
    | none => .error (.InvalidRepository "HEAD is not on a branch")
    | some tip =>
      let h : CommitHash := { hash := st.nextId }
      let tm : Nat :=
        match findCommit st tip with
        | some cm => cm.time + 1
        | none => 1
      let cm : Commit := { parents := [tip], message := encodeSemanticCommit commit, time := tm }
      .ok ({ st with commits := (h, cm) :: st.commits,
                     branches := set_branch_target st.branches b h,
                     nextId := st.nextId + 1 }, h)
  | _ => .error (.InvalidRepository "HEAD is detached")

/-- Modelled from the spec: `read_semantic_commit` is `unimplemented!()` in
the source.  Per the spec it reads the commit's message and decodes it,
failing `InvalidRepository` on a malformed message. -/
def read_semantic_commit (st : RepoState) (commit_hash : CommitHash) :
    Except Error SemanticCommit :=
  match findCommit st commit_hash with
  | none => .error (.Git2Error .NotFound)
  | some cm => decodeSemanticCommit cm.message

/-- Outcomes of the fallible external calls made by `create_commit`, in source
order: `repo.index()`, `fs::File::create`, `index.add_path`,
`index.write_tree`, `repo.find_tree`, `repo.signature`, and the final
`repo.commit` (which writes the commit object and updates the branch
reference as one `git2` operation). -/
structure CommitEnv where
  indexFails : Bool
  fileCreateFails : Bool
  addPathFails : Bool
  writeTreeFails : Bool
  findTreeFails : Bool
  signatureFails : Bool
  commitRefFails : Bool
deriving DecidableEq

/-- The placeholder file name the source stages (`"TODO: file name?"`). -/
def commitFileName : String := "TODO: file name?"

/-- `create_commit(commit_message, diff)` (the `diff` argument is unused by
the body).  The sequence follows the source: `head()` (a panicking `unwrap` on
an unborn HEAD), the vacuous `is_branch` check (its body is empty), loading
the index, creating the placeholder file in the working directory, staging it,
writing the tree, looking the tree up, loading the signature, resolving the
current branch and its tip, and finally `repo.commit(Some(refs/heads/branch),
...)` which writes the new commit and advances the branch reference as one
atomic `git2` operation.  Panics (`unwrap`) are modelled as returned errors
paired with the state at the point of failure. -/
def create_commit (env : CommitEnv) (st : RepoState) (commit_message : String)
    (_diff : Option String) : RepoState × Except Error CommitHash :=
  match repositoryHead st with
  | .error e => (st, .error (.Git2Error e))
  | .ok _ =>
    if env.indexFails then (st, .error (.Git2Error .GenericError))
    else if env.fileCreateFails then (st, .error (.Unknown "panic: File::create failed"))
    else
      let st1 := { st with workdirFiles := commitFileName :: st.workdirFiles }
      if env.addPathFails then (st1, .error (.Git2Error .GenericError))
      else
        let st2 := { st1 with indexEntries := commitFileName :: st1.indexEntries }
        if env.writeTreeFails then (st2, .error (.Git2Error .GenericError))
        else if env.findTreeFails then (st2, .error (.Git2Error .GenericError))
        else if env.signatureFails then (st2, .error (.Git2Error .GenericError))
        else
          match st.head with
          | HeadState.attached b =>
            match findBranch st2 b with
            | none => (st2, .error (.Git2Error .NotFound))
            | some parentHash =>
              match findCommit st2 parentHash with
              | none => (st2, .error (.Git2Error .NotFound))
              | some parent =>
                if env.commitRefFails then (st2, .error (.Git2Error .GenericError))
                else
                  let h : CommitHash := { hash := st2.nextId }
                  let cm : Commit :=
                    { parents := [parentHash], message := commit_message, time := parent.time + 1 }
                  ({ st2 with commits := (h, cm) :: st2.commits,
                              branches := set_branch_target st2.branches b h,
                              nextId := st2.nextId + 1 }, .ok h)
          | _ => (st2, .error (.Git2Error .NotFound))

/-- Whether an operation result is a success. -/
def exceptIsOk {α : Type} : Except Error α → Bool
  | .ok _ => true
  | .error _ => false

/-- Whether an operation failed with the only form an AlreadyExists condition
can take in this error type: a `git2` Exists code inside `Git2Error`. -/
def isAlreadyExistsErr {α : Type} : Except Error α → Bool
  | .error (.Git2Error .Exists) => true
  | _ => false

/-- Whether an operation failed with the `InvalidRepository` error kind. -/
def isInvalidRepositoryErr {α : Type} : Except Error α → Bool
  | .error (.InvalidRepository _) => true
  | _ => false

/-- A repository holding exactly its initial commit on branch `main`. -/
def repoOne : RepoState :=
  { commits := [({ hash := 0 }, { parents := [], message := "genesis", time := 0 })],
    branches := [("main", { hash := 0 })],
    head := HeadState.attached "main",
    nextId := 1, workdirFiles := [], indexEntries := [] }

/-- Three linear commits `H0 <- H1 <- H2` on branch `main`. -/
def repoThree : RepoState :=
  { commits :=
      [({ hash := 2 }, { parents := [{ hash := 1 }], message := "c2", time := 2 }),
       ({ hash := 1 }, { parents := [{ hash := 0 }], message := "c1", time := 1 }),
       ({ hash := 0 }, { parents := [], message := "genesis", time := 0 })],
    branches := [("main", { hash := 2 })],
    head := HeadState.attached "main",
    nextId := 3, workdirFiles := [], indexEntries := [] }

/-- A branching history with a merge commit at the tip:
`H0 <- H1`, `H0 <- H2`, and `H3` merging `H1` and `H2`. -/
def repoMerge : RepoState :=
  { commits :=
      [({ hash := 3 }, { parents := [{ hash := 1 }, { hash := 2 }], message := "merge", time := 3 }),
       ({ hash := 2 }, { parents := [{ hash := 0 }], message := "c2", time := 2 }),
       ({ hash := 1 }, { parents := [{ hash := 0 }], message := "c1", time := 1 }),
       ({ hash := 0 }, { parents := [], message := "genesis", time := 0 })],
    branches := [("main", { hash := 3 })],
    head := HeadState.attached "main",
    nextId := 4, workdirFiles := [], indexEntries := [] }

/-- An environment where only the final commit-and-advance-ref step fails. -/
def envRefFail : CommitEnv :=
  { indexFails := false, fileCreateFails := false, addPathFails := false,
    writeTreeFails := false, findTreeFails := false, signatureFails := false,
    commitRefFails := true }

/-- The semantic commit used to instantiate the round-trip theorem. -/
def semCommitExample : SemanticCommit :=
  { title := "state update",
    body := "routine body",
    reserved_state := some { payload := "line one\nline two" } }

/-- The repository state after creating `semCommitExample` on `repoOne`. -/
def semCommitState : RepoState :=
  { repoOne with
    commits :=
      ({ hash := 1 },
       { parents := [{ hash := 0 }], message := encodeSemanticCommit semCommitExample, time := 1 })
        :: repoOne.commits,
    branches := set_branch_target repoOne.branches "main" { hash := 1 },
    nextId := 2 }

/-! ## Helper lemmas -/

theorem find?_set_branch (bs : List (Branch × CommitHash)) (b : Branch) (c : CommitHash)
    (hf : (bs.find? (fun pr => decide (pr.1 = b))).isSome = true) :
    (bs.map (fun pr => if pr.1 = b then (b, c) else pr)).find?
      (fun pr => decide (pr.1 = b)) = some (b, c) := by
  induction bs with
  | nil => simp [List.find?] at hf
  | cons p rest ih =>
    by_cases hp : p.1 = b
    · simp [List.find?, hp]
    · simp only [List.map_cons]
      rw [if_neg hp]
      rw [List.find?_cons_of_neg _ (by simp [hp]), ih ?_]
      rw [List.find?_cons_of_neg _ (by simp [hp])] at hf
      exact hf

theorem findBranch_after_set (st : RepoState) (b : Branch) (c : CommitHash)
    (hf : (findBranch st b).isSome = true) :
    findBranch { st with branches := set_branch_target st.branches b c } b = some c := by
  unfold findBranch at hf ⊢
  unfold set_branch_target
  rcases hfind : st.branches.find? (fun pr => decide (pr.1 = b)) with _ | pr
  · rw [hfind] at hf; simp at hf
  · rw [find?_set_branch st.branches b c (by rw [hfind]; rfl)]

/-! ## C4: `init` on an existing repository -/

/-- C4 (counterexample): with a repository already present at the path,
`init` does fail, but not with an AlreadyExists error kind — the error type of
the source has no such variant and the code returns `InvalidRepository`. -/
theorem init_alreadyexists_refuted :
    exceptIsOk (init (some repoEmpty)) = false ∧
    isAlreadyExistsErr (init (some repoEmpty)) = false := by
  constructor <;> rfl

/-- C4 (amended): `init(directory)` fails with the `InvalidRepository` error
kind when a repository already exists at that path, and otherwise creates an
empty repository and returns a handle to it. -/
theorem init_contract :
    ∀ r : RepoState,
      init (some r) = .error (.InvalidRepository "There is an already existing repository") ∧
      init none = .ok repoEmpty := by
  intro r
  constructor <;> rfl

/-! ## C5: `move_branch` / `locate_branch` -/

/-- C5 (counterexample): the target commit `{hash := 77}` does not exist in
`repoOne`, yet `move_branch` returns success (the failing `set_target` result
is discarded), contradicting the claim that it fails `NotFound` when the
target commit does not exist. -/
theorem move_branch_missing_commit_ok :
    move_branch repoOne "main" { hash := 77 } = .ok repoOne := by
  rfl

/-- C5 (amended): `move_branch(name, c)` fails with the `git2` NotFound error
when the branch does not exist; when the branch and the target commit both
exist it succeeds and a subsequent `locate_branch(name)` returns `c`; when the
branch exists but the target commit does not, it still returns success and
leaves the branch unchanged (the `set_target` failure is discarded). -/
theorem move_branch_contract (st : RepoState) (b : Branch) (c : CommitHash) (t : CommitHash) :
    (findBranch st b = none → move_branch st b c = .error (.Git2Error .NotFound)) ∧
    (findBranch st b = some t → (findCommit st c).isSome = true →
      move_branch st b c = .ok { st with branches := set_branch_target st.branches b c } ∧
      locate_branch { st with branches := set_branch_target st.branches b c } b = .ok c) ∧
    (findBranch st b = some t → findCommit st c = none → move_branch st b c = .ok st) := by
  refine ⟨fun hb => ?_, fun hb hc => ⟨?_, ?_⟩, fun hb hc => ?_⟩
  · unfold move_branch
    rw [hb]
  · unfold move_branch refSetTarget
    rw [hb, if_pos hc]
  · unfold locate_branch
    rw [findBranch_after_set st b c (by rw [hb]; rfl)]
  · unfold move_branch refSetTarget
    rw [hb, hc]
    rfl

/-- C5 (witness): on `repoOne`, moving `main` to the existing commit
`{hash := 0}` succeeds and `locate_branch` then returns it; moving a branch
that does not exist fails with the `git2` NotFound error. -/
theorem move_branch_contract_instance :
    move_branch repoOne "main" { hash := 0 } =
      .ok { repoOne with branches := set_branch_target repoOne.branches "main" { hash := 0 } } ∧
    locate_branch
      { repoOne with branches := set_branch_target repoOne.branches "main" { hash := 0 } }
      "main" = .ok { hash := 0 } ∧
    move_branch repoOne "nope" { hash := 0 } = .error (.Git2Error .NotFound) := by
  refine ⟨?_, ?_, ?_⟩
  · exact ((move_branch_contract repoOne "main" { hash := 0 } { hash := 0 }).2.1 rfl rfl).1
  · exact ((move_branch_contract repoOne "main" { hash := 0 } { hash := 0 }).2.1 rfl rfl).2
  · exact (move_branch_contract repoOne "nope" { hash := 0 } { hash := 0 }).1 rfl

/-! ## C6: `create_branch` -/

/-- C6: `create_branch(name, commit)` fails with the `git2` NotFound error
when the commit does not exist; when the commit exists but the name is already
taken it fails with the `git2` Exists code and the existing branch target is
left unchanged (`locate_branch` still returns it). -/
theorem create_branch_contract (st : RepoState) (name : Branch) (c : CommitHash)
    (t : CommitHash) :
    (findCommit st c = none → create_branch st name c = .error (.Git2Error .NotFound)) ∧
    ((findCommit st c).isSome = true → findBranch st name = some t →
      create_branch st name c = .error (.Git2Error .Exists) ∧
      locate_branch st name = .ok t) := by
  refine ⟨fun hc => ?_, fun hc hb => ⟨?_, ?_⟩⟩
  · unfold create_branch
    rw [hc]
  · unfold create_branch
    rcases hfc : findCommit st c with _ | cm
    · rw [hfc] at hc; simp at hc
    · rw [hb]
  · unfold locate_branch
    rw [hb]

/-- C6 (witness): on `repoOne`, creating a branch on the missing commit
`{hash := 9}` fails NotFound; re-creating the taken name `main` fails Exists
and `main` still points at `{hash := 0}`. -/
theorem create_branch_contract_instance :
    create_branch repoOne "feature" { hash := 9 } = .error (.Git2Error .NotFound) ∧
    create_branch repoOne "main" { hash := 0 } = .error (.Git2Error .Exists) ∧
    locate_branch repoOne "main" = .ok { hash := 0 } := by
  refine ⟨?_, ?_, ?_⟩
  · exact (create_branch_contract repoOne "feature" { hash := 9 } { hash := 0 }).1 rfl
  · exact ((create_branch_contract repoOne "main" { hash := 0 } { hash := 0 }).2 rfl rfl).1
  · exact ((create_branch_contract repoOne "main" { hash := 0 } { hash := 0 }).2 rfl rfl).2

/-! ## C10: discarded reference updates -/

/-- C10: whenever the named branch exists, `move_branch` and `delete_branch`
return success even if the underlying reference update or deletion fails,
because the result of `set_target` / `delete` is discarded: when the target
commit does not exist the move returns `Ok` with the state unchanged, and when
the branch is the current HEAD the delete returns `Ok` with the state
unchanged. -/
theorem move_delete_discard_result (st : RepoState) (b : Branch) (c : CommitHash)
    (t : CommitHash) :
    (findBranch st b = some t → exceptIsOk (move_branch st b c) = true) ∧
    (findBranch st b = some t → findCommit st c = none → move_branch st b c = .ok st) ∧
    (findBranch st b = some t → exceptIsOk (delete_branch st b) = true) ∧
    (findBranch st b = some t → st.head = HeadState.attached b →
      delete_branch st b = .ok st) := by
  refine ⟨fun hb => ?_, fun hb hc => ?_, fun hb => ?_, fun hb hh => ?_⟩
  · unfold move_branch refSetTarget
    rw [hb]
    by_cases hc : (findCommit st c).isSome
    · rw [if_pos hc]; rfl
    · rw [if_neg hc]; rfl
  · unfold move_branch refSetTarget
    rw [hb, hc]
    rfl
  · unfold delete_branch refDelete
    rw [hb]
    by_cases hh : st.head = HeadState.attached b
    · rw [if_pos hh]; rfl
    · rw [if_neg hh]; rfl
  · unfold delete_branch refDelete
    rw [hb, if_pos hh]

/-- C10 (witness): on `repoOne` (whose HEAD is attached to `main`), moving
`main` to the nonexistent commit `{hash := 5}` and deleting the checked-out
branch `main` both return success while leaving the state unchanged. -/
theorem move_delete_discard_instance :
    exceptIsOk (move_branch repoOne "main" { hash := 5 }) = true ∧
    move_branch repoOne "main" { hash := 5 } = .ok repoOne ∧
    exceptIsOk (delete_branch repoOne "main") = true ∧
    delete_branch repoOne "main" = .ok repoOne := by
  refine ⟨?_, ?_, ?_, ?_⟩
  · exact (move_delete_discard_result repoOne "main" { hash := 5 } { hash := 0 }).1 rfl
  · exact (move_delete_discard_result repoOne "main" { hash := 5 } { hash := 0 }).2.1 rfl rfl
  · exact (move_delete_discard_result repoOne "main" { hash := 5 } { hash := 0 }).2.2.1 rfl
  · exact (move_delete_discard_result repoOne "main" { hash := 5 } { hash := 0 }).2.2.2 rfl rfl

/-! ## Revwalk lemmas -/

theorem walkAux_empty_queue (st : RepoState) (f : Nat) (acc : List CommitHash) :
    walkAux st f [] acc = .ok acc.reverse := by
  cases f <;> rfl

theorem walkAux_ok_mem (st : RepoState) :
    ∀ (f : Nat) (q acc l : List CommitHash), walkAux st f q acc = .ok l →
      ∀ x, x ∈ acc → x ∈ l := by
  intro f
  induction f with
  | zero =>
    intro q acc l hw x hx
    cases q <;>
      (simp only [walkAux, Except.ok.injEq] at hw
       rw [← hw]
       simpa using hx)
  | succ f ih =>
    intro q acc l hw x hx
    cases q with
    | nil =>
      simp only [walkAux, Except.ok.injEq] at hw
      rw [← hw]
      simpa using hx
    | cons c q1 =>
      by_cases hm : c ∈ acc
      · rw [walkAux, if_pos hm] at hw
        exact ih q1 acc l hw x hx
      · rw [walkAux, if_neg hm] at hw
        rcases hfc : findCommit st c with _ | cm
        · rw [hfc] at hw
          cases hw
        · rw [hfc] at hw
          exact ih _ _ _ hw x (List.mem_cons_of_mem c hx)

theorem revwalk_root (st : RepoState) (c : CommitHash) (cm : Commit)
    (hc : findCommit st c = some cm) (hp : cm.parents = []) :
    revwalkCollect st c = .ok [c] := by
  unfold revwalkCollect fuelFor
  rw [walkAux, if_neg (by simp)]
  simp only [hc, hp, List.append_nil, walkAux_empty_queue]
  rfl

theorem revwalk_start_mem (st : RepoState) (h : CommitHash) (oids : List CommitHash)
    (hw : revwalkCollect st h = .ok oids) : h ∈ oids := by
  unfold revwalkCollect fuelFor at hw
  rw [walkAux, if_neg (by simp)] at hw
  rcases hfc : findCommit st h with _ | cm
  · rw [hfc] at hw
    cases hw
  · rw [hfc] at hw
    exact walkAux_ok_mem st _ _ _ _ hw h (by simp)

theorem insertByTime_ne_nil (st : RepoState) (c : CommitHash) (l : List CommitHash) :
    insertByTime st c l ≠ [] := by
  cases l with
  | nil => simp [insertByTime]
  | cons d ds =>
    unfold insertByTime
    by_cases hle : timeOfC st d ≤ timeOfC st c
    · rw [if_pos hle]; simp
    · rw [if_neg hle]; simp

theorem timeSortedReverse_ne_nil (st : RepoState) (l : List CommitHash) (hl : l ≠ []) :
    timeSortedReverse st l ≠ [] := by
  unfold timeSortedReverse
  cases l with
  | nil => exact absurd rfl hl
  | cons c cs =>
    simp only [sortByTimeDesc, ne_eq, List.reverse_eq_nil_iff]
    exact insertByTime_ne_nil st c _

/-! ## C7: `get_head` / `get_initial_commit` on empty and fresh repositories -/

/-- C7 (counterexample): on a repository with no commits `get_head` does fail,
but with a propagated `git2` error (`Git2Error`), not with the
`InvalidRepository` error kind the claim names. -/
theorem get_head_empty_not_invalid :
    exceptIsOk (get_head repoEmpty) = false ∧
    isInvalidRepositoryErr (get_head repoEmpty) = false := by
  constructor <;> rfl

/-- C7 (amended): on a repository with no commits `get_head` fails with the
propagated `git2` UnbornBranch error inside `Git2Error` (while
`get_initial_commit` is the one that fails `InvalidRepository`); once HEAD
resolves, `get_head` returns the resolved commit, and when that commit is a
root `get_initial_commit` returns it as well. -/
theorem head_and_initial_contract (st : RepoState) (h : CommitHash) (cm : Commit) :
    (st.head = HeadState.unborn →
      get_head st = .error (.Git2Error .UnbornBranch) ∧
      get_initial_commit st = .error (.InvalidRepository "Repository is empty")) ∧
    (repositoryHead st = .ok h → get_head st = .ok h) ∧
    (repositoryHead st = .ok h → findCommit st h = some cm → cm.parents = [] →
      get_initial_commit st = .ok h) := by
  refine ⟨fun hu => ⟨?_, ?_⟩, fun hr => ?_, fun hr hc hp => ?_⟩
  · unfold get_head repositoryHead
    rw [hu]
  · unfold get_initial_commit repositoryHead
    rw [hu]
  · unfold get_head
    rw [hr]
  · unfold get_initial_commit
    simp only [hr]
    rw [revwalk_root st h cm hc hp]
    rfl

/-- C7 (witness): the empty repository fails as amended, and on the
one-commit repository `repoOne` both `get_head` and `get_initial_commit`
return the initial commit `{hash := 0}`. -/
theorem head_and_initial_contract_instance :
    (get_head repoEmpty = .error (.Git2Error .UnbornBranch) ∧
     get_initial_commit repoEmpty = .error (.InvalidRepository "Repository is empty")) ∧
    get_head repoOne = .ok { hash := 0 } ∧
    get_initial_commit repoOne = .ok { hash := 0 } := by
  refine ⟨?_, ?_, ?_⟩
  · exact (head_and_initial_contract repoEmpty { hash := 0 }
      { parents := [], message := "", time := 0 }).1 rfl
  · exact (head_and_initial_contract repoOne { hash := 0 }
      { parents := [], message := "genesis", time := 0 }).2.1 rfl
  · exact (head_and_initial_contract repoOne { hash := 0 }
      { parents := [], message := "genesis", time := 0 }).2.2 rfl rfl rfl

/-! ## C9: `get_initial_commit` on non-linear history -/

/-- C9: whenever HEAD resolves and the revwalk from it collects successfully —
with no linearity requirement at all, so in particular on branching histories
and histories containing merge commits — `get_initial_commit` succeeds and
returns the first element of the TIME | REVERSE sorted walk of the commits
reachable from HEAD. -/
theorem initial_commit_nonlinear_ok (st : RepoState) (h : CommitHash)
    (oids : List CommitHash) (hh : repositoryHead st = .ok h)
    (hw : revwalkCollect st h = .ok oids) :
    get_initial_commit st = .ok ((timeSortedReverse st oids).headD h) := by
  have hmem : h ∈ oids := revwalk_start_mem st h oids hw
  have hne : timeSortedReverse st oids ≠ [] :=
    timeSortedReverse_ne_nil st oids (by rintro rfl; simp at hmem)
  unfold get_initial_commit
  simp only [hh, hw]
  obtain ⟨o, rest, he⟩ := List.exists_cons_of_ne_nil hne
  rw [he]
  rfl

/-- C9 (witness): on `repoMerge`, whose history from HEAD contains a merge
commit and two diverged branches, `get_initial_commit` succeeds (returning the
oldest commit of the time-sorted reverse walk, here `{hash := 0}`). -/
theorem initial_commit_nonlinear_instance :
    get_initial_commit repoMerge =
      .ok ((timeSortedReverse repoMerge
            [{ hash := 3 }, { hash := 1 }, { hash := 2 }, { hash := 0 }]).headD
            { hash := 3 }) :=
  initial_commit_nonlinear_ok repoMerge { hash := 3 }
    [{ hash := 3 }, { hash := 1 }, { hash := 2 }, { hash := 0 }] rfl rfl
/-! ## Ancestor-walk lemmas -/

theorem walkAncestors_length_le (st : RepoState) :
    ∀ (bound : Nat) (c : CommitHash) (l : List CommitHash),
      walkAncestors st c bound = .ok l → l.length ≤ bound := by
  intro bound
  induction bound with
  | zero =>
    intro c l hw
    simp only [walkAncestors, Except.ok.injEq] at hw
    rw [← hw]
    simp
  | succ b ih =>
    intro c l hw
    simp only [walkAncestors] at hw
    rcases hfc : findCommit st c with _ | cm
    · simp only [hfc] at hw
      cases hw
    · simp only [hfc] at hw
      rcases hp : cm.parents with _ | ⟨p, ps⟩
      · simp only [hp, Except.ok.injEq] at hw
        rw [← hw]
        simp
      · rcases ps with _ | ⟨p2, ps2⟩
        · simp only [hp] at hw
          rcases hr : walkAncestors st p b with e | rest
          · simp only [hr] at hw
            cases hw
          · simp only [hr, Except.ok.injEq] at hw
            rw [← hw]
            simpa using ih p rest hr
        · simp only [hp] at hw
          cases hw

theorem walkAncestors_chain (st : RepoState) :
    ∀ (bound : Nat) (c : CommitHash) (l : List CommitHash),
      walkAncestors st c bound = .ok l → isChain st c l := by
  intro bound
  induction bound with
  | zero =>
    intro c l hw
    simp only [walkAncestors, Except.ok.injEq] at hw
    rw [← hw]
    exact trivial
  | succ b ih =>
    intro c l hw
    simp only [walkAncestors] at hw
    rcases hfc : findCommit st c with _ | cm
    · simp only [hfc] at hw
      cases hw
    · simp only [hfc] at hw
      rcases hp : cm.parents with _ | ⟨p, ps⟩
      · simp only [hp, Except.ok.injEq] at hw
        rw [← hw]
        exact trivial
      · rcases ps with _ | ⟨p2, ps2⟩
        · simp only [hp] at hw
          rcases hr : walkAncestors st p b with e | rest
          · simp only [hr] at hw
            cases hw
          · simp only [hr, Except.ok.injEq] at hw
            rw [← hw]
            exact ⟨by simp [parentOf, hfc, hp], ih p rest hr⟩
        · simp only [hp] at hw
          cases hw

theorem walkAncestors_short_root (st : RepoState) :
    ∀ (bound : Nat) (c : CommitHash) (l : List CommitHash),
      walkAncestors st c bound = .ok l → l.length < bound →
      isRootB st (l.getLastD c) = true := by
  intro bound
  induction bound with
  | zero =>
    intro c l _ hlen
    omega
  | succ b ih =>
    intro c l hw hlen
    simp only [walkAncestors] at hw
    rcases hfc : findCommit st c with _ | cm
    · simp only [hfc] at hw
      cases hw
    · simp only [hfc] at hw
      rcases hp : cm.parents with _ | ⟨p, ps⟩
      · simp only [hp, Except.ok.injEq] at hw
        rw [← hw]
        simp [isRootB, hfc, hp]
      · rcases ps with _ | ⟨p2, ps2⟩
        · simp only [hp] at hw
          rcases hr : walkAncestors st p b with e | rest
          · simp only [hr] at hw
            cases hw
          · simp only [hr, Except.ok.injEq] at hw
            rw [← hw]
            rw [List.getLastD_cons]
            refine ih p rest hr ?_
            rw [← hw] at hlen
            simp only [List.length_cons] at hlen
            omega
        · simp only [hp] at hw
          cases hw

theorem walkAncestors_take (st : RepoState) :
    ∀ (k n : Nat) (c : CommitHash) (l : List CommitHash),
      walkAncestors st c n = .ok l → k ≤ l.length →
      walkAncestors st c k = .ok (l.take k) := by
  intro k
  induction k with
  | zero =>
    intro n c l _ _
    simp [walkAncestors]
  | succ k ih =>
    intro n c l hw hk
    cases n with
    | zero =>
      simp only [walkAncestors, Except.ok.injEq] at hw
      rw [← hw] at hk
      simp at hk
    | succ m =>
      simp only [walkAncestors] at hw
      rcases hfc : findCommit st c with _ | cm
      · simp only [hfc] at hw
        cases hw
      · simp only [hfc] at hw
        rcases hp : cm.parents with _ | ⟨p, ps⟩
        · simp only [hp, Except.ok.injEq] at hw
          rw [← hw] at hk
          simp at hk
        · rcases ps with _ | ⟨p2, ps2⟩
          · simp only [hp] at hw
            rcases hr : walkAncestors st p m with e | rest
            · simp only [hr] at hw
              cases hw
            · simp only [hr, Except.ok.injEq] at hw
              rw [← hw] at hk ⊢
              simp only [walkAncestors, hfc, hp]
              rw [ih m p rest hr (by simp only [List.length_cons] at hk; omega)]
              rfl
          · simp only [hp] at hw
            cases hw

/-! ## Chain counting lemmas -/

theorem findCommit_mem (st : RepoState) (h : CommitHash) (cm : Commit)
    (hc : findCommit st h = some cm) : (h, cm) ∈ st.commits := by
  unfold findCommit at hc
  rcases hf : st.commits.find? (fun pr => decide (pr.1 = h)) with _ | pr
  · rw [hf] at hc
    cases hc
  · rw [hf] at hc
    injection hc with hc
    have hp0 := List.find?_some hf
    have hp1 : pr.1 = h := of_decide_eq_true hp0
    have hmem := List.mem_of_find?_eq_some hf
    rw [← hc, ← hp1]
    exact hmem

theorem parentsTimeOk_spec (st : RepoState) (hok : parentsTimeOk st = true)
    (c : CommitHash) (cm : Commit) (hc : findCommit st c = some cm)
    (p : CommitHash) (hp : p ∈ cm.parents) :
    ∃ pm, findCommit st p = some pm ∧ pm.time < cm.time := by
  unfold parentsTimeOk at hok
  rw [List.all_eq_true] at hok
  have h1 := hok (c, cm) (findCommit_mem st c cm hc)
  simp only [List.all_eq_true] at h1
  have h2 := h1 p hp
  rcases hfp : findCommit st p with _ | pm
  · rw [hfp] at h2
    cases h2
  · rw [hfp] at h2
    exact ⟨pm, rfl, of_decide_eq_true h2⟩

theorem parentOf_inv (st : RepoState) (c a : CommitHash) (h : parentOf st c = some a) :
    ∃ cm, findCommit st c = some cm ∧ cm.parents = [a] := by
  unfold parentOf at h
  rcases hfc : findCommit st c with _ | cm
  · simp only [hfc] at h
    cases h
  · simp only [hfc] at h
    rcases hp : cm.parents with _ | ⟨p, ps⟩
    · simp only [hp] at h
      cases h
    · rcases ps with _ | ⟨p2, ps2⟩
      · simp only [hp, Option.some.injEq] at h
        exact ⟨cm, rfl, by rw [hp, h]⟩
      · simp only [hp] at h
        cases h

theorem chain_present (st : RepoState) (hok : parentsTimeOk st = true) :
    ∀ (l : List CommitHash) (c : CommitHash), (findCommit st c).isSome = true →
      isChain st c l → ∀ x ∈ c :: l, (findCommit st x).isSome = true := by
  intro l
  induction l with
  | nil =>
    intro c hc _ x hx
    rw [List.mem_singleton] at hx
    rw [hx]
    exact hc
  | cons a rest ih =>
    intro c hc hch x hx
    obtain ⟨hpar, hrest⟩ := hch
    obtain ⟨cm, hcm, hps⟩ := parentOf_inv st c a hpar
    have ha : (findCommit st a).isSome = true := by
      obtain ⟨pm, hpm, _⟩ := parentsTimeOk_spec st hok c cm hcm a (by rw [hps]; simp)
      rw [hpm]
      rfl
    rcases List.mem_cons.mp hx with hx | hx
    · rw [hx]
      exact hc
    · exact ih a ha hrest x hx

theorem chain_times (st : RepoState) (hok : parentsTimeOk st = true) :
    ∀ (l : List CommitHash) (c : CommitHash) (cm : Commit), findCommit st c = some cm →
      isChain st c l →
      List.Chain' (fun a b => timeOfC st b < timeOfC st a) (c :: l) := by
  intro l
  induction l with
  | nil =>
    intro c cm _ _
    simp
  | cons a rest ih =>
    intro c cm hcm hch
    obtain ⟨hpar, hrest⟩ := hch
    obtain ⟨cm2, hcm2, hps⟩ := parentOf_inv st c a hpar
    obtain ⟨pm, hpm, hlt⟩ := parentsTimeOk_spec st hok c cm2 hcm2 a (by rw [hps]; simp)
    refine List.chain'_cons.mpr ⟨?_, ih a pm hpm hrest⟩
    unfold timeOfC
    rw [hpm, hcm2]
    exact hlt

theorem chain_nodup (st : RepoState) (hok : parentsTimeOk st = true)
    (l : List CommitHash) (c : CommitHash) (cm : Commit)
    (hcm : findCommit st c = some cm) (hch : isChain st c l) : (c :: l).Nodup := by
  have hchain := chain_times st hok l c cm hcm hch
  haveI : IsTrans CommitHash (fun a b => timeOfC st b < timeOfC st a) :=
    ⟨fun a b d hab hbd => lt_trans hbd hab⟩
  have hpw : List.Pairwise (fun a b => timeOfC st b < timeOfC st a) (c :: l) :=
    List.chain'_iff_pairwise.mp hchain
  refine hpw.imp ?_
  intro a b hab
  rintro rfl
  exact lt_irrefl _ hab

theorem chain_length_lt (st : RepoState) (hok : parentsTimeOk st = true)
    (c : CommitHash) (cm : Commit) (l : List CommitHash)
    (hcm : findCommit st c = some cm) (hch : isChain st c l) :
    l.length < st.commits.length := by
  have hnd := chain_nodup st hok l c cm hcm hch
  have hsub : (c :: l) ⊆ st.commits.map Prod.fst := by
    intro x hx
    have hx2 := chain_present st hok l c (by rw [hcm]; rfl) hch x hx
    rcases hfx : findCommit st x with _ | xm
    · rw [hfx] at hx2
      cases hx2
    · exact List.mem_map.mpr ⟨(x, xm), findCommit_mem st x xm hfx, rfl⟩
  have hle := (List.subperm_of_subset hnd hsub).length_le
  simp only [List.length_map, List.length_cons] at hle
  omega

/-! ## C2: the `list_ancestors` contract -/

/-- C2: `list_ancestors(c, max)` fails `InvalidRepository` when `c` is a root
(no parent) and when `c` itself is a merge commit; any successful result is
the strict ancestor chain of `c` ordered nearest-first (each element the
unique parent of the previous one, so no visited node on the returned chain
was a merge commit); and with `max = none` on a well-founded store a
successful chain always reaches the root — a merge anywhere along the walk
fails the whole operation instead of truncating the result. -/
theorem list_ancestors_contract (st : RepoState) (c : CommitHash) (max : Option Nat) :
    (∀ cm, findCommit st c = some cm → cm.parents = [] →
      list_ancestors st c max = .error (.InvalidRepository "There is no parent commit")) ∧
    (∀ cm w, findCommit st c = some cm → 2 ≤ cm.parents.length →
      revwalkCollect st c = .ok w →
      list_ancestors st c max = .error (.InvalidRepository "There exists a merge commit")) ∧
    (∀ l, list_ancestors st c max = .ok l → isChain st c l) ∧
    (∀ l, parentsTimeOk st = true → max = none → list_ancestors st c max = .ok l →
      isRootB st (l.getLastD c) = true) := by
  refine ⟨?_, ?_, ?_, ?_⟩
  · intro cm hc hp
    simp only [list_ancestors, hc, revwalk_root st c cm hc hp, hp, List.length_nil]
    rfl
  · intro cm w hc h2 hw
    simp only [list_ancestors, hc, hw]
    rw [if_neg (by omega), if_pos (by omega)]
  · intro l hl
    unfold list_ancestors at hl
    rcases hfc : findCommit st c with _ | cm
    · simp only [hfc] at hl
      cases hl
    · simp only [hfc] at hl
      rcases hw : revwalkCollect st c with e | w
      · simp only [hw] at hl
        cases hl
      · simp only [hw] at hl
        by_cases h0 : cm.parents.length = 0
        · rw [if_pos h0] at hl
          cases hl
        · rw [if_neg h0] at hl
          by_cases h1 : 1 < cm.parents.length
          · rw [if_pos h1] at hl
            cases hl
          · rw [if_neg h1] at hl
            exact walkAncestors_chain st _ c l hl
  · intro l hok hmax hl
    subst hmax
    unfold list_ancestors at hl
    rcases hfc : findCommit st c with _ | cm
    · simp only [hfc] at hl
      cases hl
    · simp only [hfc] at hl
      rcases hw : revwalkCollect st c with e | w
      · simp only [hw] at hl
        cases hl
      · simp only [hw] at hl
        by_cases h0 : cm.parents.length = 0
        · rw [if_pos h0] at hl
          cases hl
        · rw [if_neg h0] at hl
          by_cases h1 : 1 < cm.parents.length
          · rw [if_pos h1] at hl
            cases hl
          · rw [if_neg h1] at hl
            have hchain := walkAncestors_chain st _ c l hl
            have hlen := chain_length_lt st hok c cm l hfc hchain
            exact walkAncestors_short_root st _ c l hl hlen

/-- C2 (witness): the root commit of `repoOne` fails with the no-parent
message; the merge commit of `repoMerge` fails with the merge message; on
`repoThree` the returned list `[H1, H0]` is the nearest-first ancestor chain
of `H2` and, with `max = none`, it ends at the root `H0`. -/
theorem list_ancestors_contract_instance :
    list_ancestors repoOne { hash := 0 } none =
      .error (.InvalidRepository "There is no parent commit") ∧
    list_ancestors repoMerge { hash := 3 } none =
      .error (.InvalidRepository "There exists a merge commit") ∧
    isChain repoThree { hash := 2 } [{ hash := 1 }, { hash := 0 }] ∧
    isRootB repoThree ([{ hash := 1 }, { hash := 0 }].getLastD { hash := 2 }) = true := by
  refine ⟨?_, ?_, ?_, ?_⟩
  · exact (list_ancestors_contract repoOne { hash := 0 } none).1
      { parents := [], message := "genesis", time := 0 } rfl rfl
  · exact (list_ancestors_contract repoMerge { hash := 3 } none).2.1
      { parents := [{ hash := 1 }, { hash := 2 }], message := "merge", time := 3 }
      [{ hash := 3 }, { hash := 1 }, { hash := 2 }, { hash := 0 }] rfl (by decide) rfl
  · exact (list_ancestors_contract repoThree { hash := 2 } none).2.2.1
      [{ hash := 1 }, { hash := 0 }] rfl
  · exact (list_ancestors_contract repoThree { hash := 2 } none).2.2.2
      [{ hash := 1 }, { hash := 0 }] rfl rfl rfl

/-! ## C8: `Some k` is a length-k prefix of `None` -/

/-- C8: whenever the full walk `list_ancestors(c, none)` succeeds with chain
`l` (whose length is the depth of `c`) and `k ≤ l.length`, the truncated call
`list_ancestors(c, some k)` succeeds and returns exactly the first `k`
elements of `l`. -/
theorem list_ancestors_take_of_le (st : RepoState) (c : CommitHash) (k : Nat)
    (l : List CommitHash) (hall : list_ancestors st c none = .ok l)
    (hk : k ≤ l.length) :
    list_ancestors st c (some k) = .ok (l.take k) := by
  unfold list_ancestors at hall ⊢
  rcases hfc : findCommit st c with _ | cm
  · simp only [hfc] at hall
    cases hall
  · simp only [hfc] at hall ⊢
    rcases hw : revwalkCollect st c with e | w
    · simp only [hw] at hall
      cases hall
    · simp only [hw] at hall ⊢
      by_cases h0 : cm.parents.length = 0
      · rw [if_pos h0] at hall
        cases hall
      · rw [if_neg h0] at hall ⊢
        by_cases h1 : 1 < cm.parents.length
        · rw [if_pos h1] at hall
          cases hall
        · rw [if_neg h1] at hall ⊢
          exact walkAncestors_take st k _ c l hall hk

/-- C8 (witness): on the three linear commits of `repoThree`,
`list_ancestors(H2, none) = [H1, H0]` and `list_ancestors(H2, some 1)` is its
length-1 front segment `[H1]`. -/
theorem list_ancestors_take_instance :
    list_ancestors repoThree { hash := 2 } (some 1) =
      .ok ([{ hash := 1 }, { hash := 0 }].take 1) :=
  list_ancestors_take_of_le repoThree { hash := 2 } 1
    [{ hash := 1 }, { hash := 0 }] rfl (by decide)

/-! ## C3: `create_commit` never moves the branch on failure -/

theorem create_commit_cases (env : CommitEnv) (st : RepoState)
    (commit_message : String) (diff : Option String) :
    (create_commit env st commit_message diff).1.branches = st.branches ∨
    ∃ h, (create_commit env st commit_message diff).2 = .ok h := by
  unfold create_commit
  repeat' split
  all_goals dsimp only
  repeat' split
  all_goals first
    | exact Or.inl rfl
    | exact Or.inr ⟨_, rfl⟩

/-- C3: if any step of `create_commit` fails (unborn HEAD, index load, file
creation, staging, tree write, tree lookup, signature, branch or parent
lookup, or the final commit-and-advance-ref operation), the branch references
afterwards are exactly the branch references before the call: the branch
pointer is only ever moved by the single atomic commit step that also creates
the commit, never to a partially created commit. -/
theorem create_commit_branch_atomic (env : CommitEnv) (st : RepoState)
    (commit_message : String) (diff : Option String) (e : Error)
    (hfail : (create_commit env st commit_message diff).2 = .error e) :
    (create_commit env st commit_message diff).1.branches = st.branches := by
  rcases create_commit_cases env st commit_message diff with hok | ⟨h, hhit⟩
  · exact hok
  · rw [hhit] at hfail
    cases hfail

/-- C3 (witness): on `repoOne` with an environment whose final
commit-and-advance-ref step fails, `create_commit` fails and the branch list
is unchanged. -/
theorem create_commit_branch_atomic_instance :
    (create_commit envRefFail repoOne "msg" none).1.branches = repoOne.branches :=
  create_commit_branch_atomic envRefFail repoOne "msg" none
    (.Git2Error .GenericError) rfl

/-! ## Line-codec lemmas -/

theorem splitLines_nil : splitLines [] = [[]] := rfl

theorem splitLines_cons (c : Char) (cs : List Char) :
    splitLines (c :: cs) =
      if c = newlineChar then [] :: splitLines cs
      else
        match splitLines cs with
        | [] => [[c]]
        | l :: ls => (c :: l) :: ls := rfl

theorem splitLines_ne_nil : ∀ cs : List Char, splitLines cs ≠ [] := by
  intro cs
  induction cs with
  | nil => simp [splitLines]
  | cons c cs ih =>
    rw [splitLines_cons]
    by_cases hc : c = newlineChar
    · rw [if_pos hc]
      simp
    · rw [if_neg hc]
      rcases hs : splitLines cs with _ | ⟨l, ls⟩
      · simp
      · show (c :: l) :: ls ≠ []
        simp

theorem splitLines_cons_newline (b : List Char) :
    splitLines (newlineChar :: b) = [] :: splitLines b := by
  rw [splitLines_cons, if_pos rfl]

theorem joinLines_cons_head (c : Char) (l : List Char) (ls : List (List Char)) :
    joinLines ((c :: l) :: ls) = c :: joinLines (l :: ls) := by
  cases ls <;> rfl

theorem joinLines_nil_cons (l : List Char) (ls : List (List Char)) :
    joinLines ([] :: l :: ls) = newlineChar :: joinLines (l :: ls) := rfl

theorem joinLines_splitLines : ∀ cs : List Char, joinLines (splitLines cs) = cs := by
  intro cs
  induction cs with
  | nil => rfl
  | cons c cs ih =>
    by_cases hc : c = newlineChar
    · rw [hc, splitLines_cons_newline]
      rcases hs : splitLines cs with _ | ⟨l, ls⟩
      · exact absurd hs (splitLines_ne_nil cs)
      · rw [joinLines_nil_cons]
        rw [hs] at ih
        rw [ih]
    · rw [splitLines_cons, if_neg hc]
      rcases hs : splitLines cs with _ | ⟨l, ls⟩
      · exact absurd hs (splitLines_ne_nil cs)
      · show joinLines ((c :: l) :: ls) = c :: cs
        rw [joinLines_cons_head]
        rw [hs] at ih
        rw [ih]

theorem splitLines_append (a b : List Char) :
    splitLines (a ++ newlineChar :: b) = splitLines a ++ splitLines b := by
  induction a with
  | nil =>
    rw [List.nil_append, splitLines_cons_newline, splitLines_nil, List.cons_append,
        List.nil_append]
  | cons c cs ih =>
    show splitLines (c :: (cs ++ newlineChar :: b)) = splitLines (c :: cs) ++ splitLines b
    rw [splitLines_cons, splitLines_cons]
    by_cases hc : c = newlineChar
    · rw [if_pos hc, if_pos hc, ih, List.cons_append]
    · rw [if_neg hc, if_neg hc, ih]
      rcases hs : splitLines cs with _ | ⟨l, ls⟩
      · exact absurd hs (splitLines_ne_nil cs)
      · show (c :: l) :: (ls ++ splitLines b) = ((c :: l) :: ls) ++ splitLines b
        rw [List.cons_append]

theorem splitLines_no_newline (a : List Char) (h : newlineChar ∉ a) :
    splitLines a = [a] := by
  induction a with
  | nil => rfl
  | cons c cs ih =>
    rw [splitLines_cons]
    rw [if_neg (fun he => h (by rw [← he]; exact List.mem_cons_self c cs))]
    rw [ih (fun hm => h (List.mem_cons_of_mem c hm))]

theorem findMarkerIdx_cons (l : List Char) (ls : List (List Char)) :
    findMarkerIdx (l :: ls) =
      if l = reservedStateMarker then some 0
      else (findMarkerIdx ls).map (fun i => i + 1) := rfl

theorem findMarkerIdx_append (xs ys : List (List Char))
    (h : reservedStateMarker ∉ xs) :
    findMarkerIdx (xs ++ reservedStateMarker :: ys) = some xs.length := by
  induction xs with
  | nil =>
    rw [List.nil_append, findMarkerIdx_cons, if_pos rfl]
    rfl
  | cons l ls ih =>
    show findMarkerIdx (l :: (ls ++ reservedStateMarker :: ys)) = some (l :: ls).length
    rw [findMarkerIdx_cons]
    rw [if_neg (fun he => h (by rw [← he]; exact List.mem_cons_self l ls))]
    rw [ih (fun hm => h (List.mem_cons_of_mem l hm))]
    rfl

theorem take_len_append {α : Type} (xs ys : List α) : (xs ++ ys).take xs.length = xs := by
  induction xs with
  | nil => rfl
  | cons x xs ih =>
    simp only [List.cons_append, List.length_cons, List.take_succ_cons]
    rw [ih]

theorem drop_len_succ_append {α : Type} (xs : List α) (y : α) (ys : List α) :
    (xs ++ y :: ys).drop (xs.length + 1) = ys := by
  induction xs with
  | nil => rfl
  | cons x xs ih =>
    simp only [List.cons_append, List.length_cons, List.drop_succ_cons]
    exact ih

theorem decode_encode_semantic (s : SemanticCommit) (rs : ReservedState)
    (hrs : s.reserved_state = some rs) (ht : newlineChar ∉ s.title.data)
    (hb : reservedStateMarker ∉ splitLines s.body.data) :
    decodeSemanticCommit (encodeSemanticCommit s) = .ok s := by
  have hm : newlineChar ∉ reservedStateMarker := by decide
  have hsplit :
      splitLines (encodeSemanticCommit s).data =
        s.title.data :: [] ::
          (splitLines s.body.data ++
            reservedStateMarker :: splitLines rs.payload.data) := by
    show splitLines (s.title.data ++ newlineChar :: newlineChar ::
        (s.body.data ++ stateBlock s.reserved_state)) = _
    rw [hrs]
    show splitLines (s.title.data ++ newlineChar ::
        (newlineChar :: (s.body.data ++ newlineChar ::
          (reservedStateMarker ++ newlineChar :: rs.payload.data)))) = _
    rw [splitLines_append, splitLines_no_newline s.title.data ht,
        splitLines_cons_newline, splitLines_append, splitLines_append,
        splitLines_no_newline reservedStateMarker hm]
    simp
  unfold decodeSemanticCommit
  simp only [hsplit]
  rw [if_pos True.intro]
  rw [findMarkerIdx_append (splitLines s.body.data) (splitLines rs.payload.data) hb]
  simp only [take_len_append, drop_len_succ_append, joinLines_splitLines]
  rw [← hrs]

/-! ## C1: the semantic-commit round trip -/

/-- C1: for a `SemanticCommit` with a defined reserved state (and, per the
spec's well-formedness requirement on the encoding, a single-line title and a
body that does not itself contain the sentinel line), a successful
`create_semantic_commit` followed by `read_semantic_commit` on the returned
commit hash yields the very same `SemanticCommit` — title, body and reserved
state all round-trip. -/
theorem semantic_commit_roundtrip (st : RepoState) (s : SemanticCommit)
    (rs : ReservedState) (stp : RepoState) (h : CommitHash)
    (hrs : s.reserved_state = some rs) (ht : newlineChar ∉ s.title.data)
    (hb : reservedStateMarker ∉ splitLines s.body.data)
    (hc : create_semantic_commit st s = .ok (stp, h)) :
    read_semantic_commit stp h = .ok s := by
  unfold create_semantic_commit at hc
  rcases hhd : st.head with _ | b | d
  · simp only [hhd] at hc
    cases hc
  · simp only [hhd] at hc
    rcases hfb : findBranch st b with _ | tip
    · simp only [hfb] at hc
      cases hc
    · simp only [hfb] at hc
      injection hc with hc
      injection hc with h1 h2
      rw [← h1, ← h2]
      unfold read_semantic_commit findCommit
      rw [List.find?_cons_of_pos _ (by simp)]
      exact decode_encode_semantic s rs hrs ht hb
  · simp only [hhd] at hc
    cases hc

/-- C1 (witness): creating `semCommitExample` (whose reserved-state payload
spans several lines) on `repoOne` and reading commit `{hash := 1}` back
returns the identical semantic commit. -/
theorem semantic_commit_roundtrip_instance :
    read_semantic_commit semCommitState { hash := 1 } = .ok semCommitExample :=
  semantic_commit_roundtrip repoOne semCommitExample
    { payload := "line one\nline two" } semCommitState { hash := 1 }
    rfl (by decide) (by decide) rfl
